import Mathlib

/-!
Verification development for the kalycs desktop file organizer.

The Go sources are shallowly embedded: Go strings are modelled as `List Char`
(rune sequences), Go byte lengths via UTF-8 sizes, `encoding/json`
(un)marshalling of string arrays and the `regexp` engine are modelled by
executable Lean functions covering the constructs the program uses, and each
repository/classifier operation becomes a pure Lean function over explicit
state.  The repository carries two revisions of the classifier; the revision
embedded here is the one pinned by the package's own tests (multi-text
matching, `(?i)` prepending, priority sort).  Divergences of the stale
revision are discussed where relevant.
-/

/-- Go strings, modelled as their rune sequence. -/
abbrev GoStr := List Char

/-- Model of Go `strings.ToLower` (exact on ASCII, which is all the program
and its rule texts exercise; `Char.toLower` lower-cases `A`..`Z`). -/
def goToLower (s : GoStr) : GoStr := s.map Char.toLower

/-- Model of Go `unicode.IsSpace` on the Latin-1 range (space, tab, newline,
vertical tab, form feed, carriage return, NEL, NBSP). -/
def goIsSpaceChar (c : Char) : Bool :=
  c = ' ' || c = '\t' || c = '\n' || c = Char.ofNat 11 || c = Char.ofNat 12 ||
    c = '\r' || c.toNat = 0x85 || c.toNat = 0xA0

/-- Model of Go `strings.TrimSpace`: drop space characters from both ends. -/
def goTrimSpace (s : GoStr) : GoStr :=
  ((s.dropWhile goIsSpaceChar).reverse.dropWhile goIsSpaceChar).reverse

/-- Model of Go `len(s)` on a string: the UTF-8 byte length. -/
def utf8Len (s : GoStr) : Nat := (s.map Char.utf8Size).sum

/-- Model of Go `strings.Contains sub s`: some tail of `s` starts with `sub`.
Mirrors the index scan of the Go implementation. -/
def hasSub : GoStr → GoStr → Bool
  | [], sub => sub.isPrefixOf []
  | c :: t, sub => sub.isPrefixOf (c :: t) || hasSub t sub

/-- Model of Go `filepath.Ext` on a leaf file name (no path separators):
the suffix beginning at the final dot, empty when there is no dot. -/
def goFilepathExt (name : GoStr) : GoStr :=
  let rev := name.reverse
  if rev.contains '.' then '.' :: (rev.takeWhile (fun c => c ≠ '.')).reverse
  else []

/-! JSON model: Go `encoding/json` marshalling and unmarshalling restricted to
arrays of strings, which is the only JSON shape the program reads or writes
(the `texts` column). -/

/-- Value of a hexadecimal digit character. -/
def hexVal (c : Char) : Option Nat :=
  if '0' ≤ c ∧ c ≤ '9' then some (c.toNat - 48)
  else if 'a' ≤ c ∧ c ≤ 'f' then some (c.toNat - 87)
  else if 'A' ≤ c ∧ c ≤ 'F' then some (c.toNat - 55)
  else none

/-- Lower-case hexadecimal digit character for `n < 16`. -/
def hexDig (n : Nat) : Char :=
  if n < 10 then Char.ofNat (48 + n) else Char.ofNat (87 + n)

/-- Escaping of one character inside a JSON string, as Go's encoder emits it
(HTML-safe escaping of `<`, `>`, `&`, named escapes for the common control
characters, `\u00XX` for the rest). -/
def escapeChar (c : Char) : List Char :=
  if c = '"' then ['\\', '"']
  else if c = '\\' then ['\\', '\\']
  else if c = '\n' then ['\\', 'n']
  else if c = '\r' then ['\\', 'r']
  else if c = '\t' then ['\\', 't']
  else if c = '<' then ['\\', 'u', '0', '0', '3', 'c']
  else if c = '>' then ['\\', 'u', '0', '0', '3', 'e']
  else if c = '&' then ['\\', 'u', '0', '0', '2', '6']
  else if c.toNat < 32 then ['\\', 'u', '0', '0', hexDig (c.toNat / 16), hexDig (c.toNat % 16)]
  else if c.toNat = 0x2028 then ['\\', 'u', '2', '0', '2', '8']
  else if c.toNat = 0x2029 then ['\\', 'u', '2', '0', '2', '9']
  else [c]

/-- Escaped body of a JSON string. -/
def escBody (s : GoStr) : List Char := (s.map escapeChar).flatten

/-- A JSON string literal for `s`, quotes included. -/
def encodeJStr (s : GoStr) : List Char := '"' :: (escBody s ++ ['"'])

/-- Comma-separated JSON string literals. -/
def jsonEncItems : List GoStr → List Char
  | [] => []
  | [s] => encodeJStr s
  | s :: rest => encodeJStr s ++ ',' :: jsonEncItems rest

/-- Model of Go `json.Marshal` on a `[]string` value. -/
def jsonMarshalStrings (l : List GoStr) : GoStr :=
  '[' :: (jsonEncItems l ++ [']'])

/-- JSON insignificant whitespace. -/
def jsonWsChar (c : Char) : Bool :=
  c = ' ' || c = '\t' || c = '\n' || c = '\r'

/-- Read four hexadecimal digits (the payload of a `\uXXXX` escape). -/
def readHex4 : List Char → Option (Nat × List Char)
  | h1 :: h2 :: h3 :: h4 :: r =>
    match hexVal h1, hexVal h2, hexVal h3, hexVal h4 with
    | some a, some b, some c, some d => some (((a * 16 + b) * 16 + c) * 16 + d, r)
    | _, _, _, _ => none
  | _ => none

/-- Parse the remainder of a JSON string literal (the opening quote already
consumed); returns the decoded characters and the input following the
closing quote.  The fuel dominates the number of decoded characters, so the
recursion is structural and the definition evaluates in the kernel. -/
def parseJStrF : Nat → List Char → Option (GoStr × List Char)
  | 0, _ => none
  | _ + 1, [] => none
  | fuel + 1, c :: r =>
    if c = '"' then some ([], r)
    else if c = '\\' then
      match r with
      | [] => none
      | e :: r2 =>
        if e = '"' then (parseJStrF fuel r2).map fun p => ('"' :: p.1, p.2)
        else if e = '\\' then (parseJStrF fuel r2).map fun p => ('\\' :: p.1, p.2)
        else if e = '/' then (parseJStrF fuel r2).map fun p => ('/' :: p.1, p.2)
        else if e = 'n' then (parseJStrF fuel r2).map fun p => ('\n' :: p.1, p.2)
        else if e = 'r' then (parseJStrF fuel r2).map fun p => ('\r' :: p.1, p.2)
        else if e = 't' then (parseJStrF fuel r2).map fun p => ('\t' :: p.1, p.2)
        else if e = 'b' then (parseJStrF fuel r2).map fun p => (Char.ofNat 8 :: p.1, p.2)
        else if e = 'f' then (parseJStrF fuel r2).map fun p => (Char.ofNat 12 :: p.1, p.2)
        else if e = 'u' then
          match readHex4 r2 with
          | some (n, r3) =>
            if Nat.isValidChar n then (parseJStrF fuel r3).map fun p => (Char.ofNat n :: p.1, p.2)
            else none
          | none => none
        else none
    else if c.toNat < 32 then none
    else (parseJStrF fuel r).map fun p => (c :: p.1, p.2)

/-- String-literal parsing with sufficient fuel. -/
def parseJStr (l : List Char) : Option (GoStr × List Char) :=
  parseJStrF (l.length + 1) l

/-- After one array element: parse `, string` repetitions until `]`.  The
fuel argument dominates the input length, so the definition is total. -/
def parseTailAux : Nat → List Char → Option (List GoStr × List Char)
  | 0, _ => none
  | fuel + 1, l =>
    match l.dropWhile jsonWsChar with
    | ']' :: rest => some ([], rest)
    | ',' :: rest =>
      match rest.dropWhile jsonWsChar with
      | '"' :: rest2 =>
        match parseJStr rest2 with
        | none => none
        | some (s, rest3) =>
          match parseTailAux fuel rest3 with
          | none => none
          | some (ss, rest4) => some (s :: ss, rest4)
      | _ => none
    | _ => none

/-- Model of Go `json.Unmarshal` into a `[]string` target: a JSON array of
strings (or `null`, which Go leaves as the nil slice). -/
def jsonUnmarshalStrings (g : GoStr) : Option (List GoStr) :=
  match g.dropWhile jsonWsChar with
  | '[' :: r =>
    match r.dropWhile jsonWsChar with
    | ']' :: rest => if rest.dropWhile jsonWsChar = [] then some [] else none
    | '"' :: rest =>
      match parseJStr rest with
      | none => none
      | some (s, rest2) =>
        match parseTailAux (rest2.length + 1) rest2 with
        | none => none
        | some (ss, rest3) => if rest3.dropWhile jsonWsChar = [] then some (s :: ss) else none
    | _ => none
  | 'n' :: 'u' :: 'l' :: 'l' :: r => if r.dropWhile jsonWsChar = [] then some [] else none
  | _ => none

/-! Regex model: an executable engine for the fragment of Go `regexp` syntax
the program exercises (literals, `.`, `\d`, escaped metacharacters, the
quantifiers `+` `*` `?`, the anchors `^` `$`, and a leading `(?i)` flag as
prepended by the classifier).  Patterns outside the fragment fail to
compile. -/

/-- An atomic regex form. -/
inductive RBase where
  | anchorA : RBase
  | anchorZ : RBase
  | anyDot : RBase
  | lit : Char → RBase
  | digit : RBase
deriving DecidableEq

/-- A quantifier on an atom. -/
inductive RQuant where
  | single : RQuant
  | star : RQuant
  | plus : RQuant
  | opt : RQuant
deriving DecidableEq

/-- One quantified atom. -/
structure RItem where
  base : RBase
  quant : RQuant
deriving DecidableEq

/-- A compiled regular expression: case-insensitivity flag plus the atom
sequence. -/
structure GoRegex where
  ci : Bool
  items : List RItem
deriving DecidableEq

/-- Parse a pattern body into quantified atoms.  The fuel argument dominates
the input length (every step consumes at least one character), keeping the
recursion structural so that the definition evaluates in the kernel. -/
def reParseItemsF : Nat → List Char → Option (List RItem)
  | _, [] => some []
  | 0, _ :: _ => none
  | fuel + 1, '^' :: r =>
    match r with
    | '+' :: _ => none
    | '*' :: _ => none
    | '?' :: _ => none
    | _ => (reParseItemsF fuel r).map (fun items => ⟨RBase.anchorA, RQuant.single⟩ :: items)
  | fuel + 1, '$' :: r =>
    match r with
    | '+' :: _ => none
    | '*' :: _ => none
    | '?' :: _ => none
    | _ => (reParseItemsF fuel r).map (fun items => ⟨RBase.anchorZ, RQuant.single⟩ :: items)
  | fuel + 1, '\\' :: e :: r =>
    let b? : Option RBase :=
      if e = 'd' then some RBase.digit
      else if e = '\\' ∨ e = '.' ∨ e = '+' ∨ e = '*' ∨ e = '?' ∨ e = '^' ∨ e = '$' ∨
          e = '(' ∨ e = ')' ∨ e = '[' ∨ e = ']' ∨ e = '-' ∨ e = '/' then
        some (RBase.lit e)
      else none
    match b? with
    | none => none
    | some b =>
      match r with
      | '+' :: r2 => (reParseItemsF fuel r2).map (fun items => ⟨b, RQuant.plus⟩ :: items)
      | '*' :: r2 => (reParseItemsF fuel r2).map (fun items => ⟨b, RQuant.star⟩ :: items)
      | '?' :: r2 => (reParseItemsF fuel r2).map (fun items => ⟨b, RQuant.opt⟩ :: items)
      | _ => (reParseItemsF fuel r).map (fun items => ⟨b, RQuant.single⟩ :: items)
  | fuel + 1, c :: r =>
    if c = '+' ∨ c = '*' ∨ c = '?' ∨ c = '(' ∨ c = ')' ∨ c = '[' ∨ c = ']' ∨ c = '\\' then none
    else
      let b := if c = '.' then RBase.anyDot else RBase.lit c
      match r with
      | '+' :: r2 => (reParseItemsF fuel r2).map (fun items => ⟨b, RQuant.plus⟩ :: items)
      | '*' :: r2 => (reParseItemsF fuel r2).map (fun items => ⟨b, RQuant.star⟩ :: items)
      | '?' :: r2 => (reParseItemsF fuel r2).map (fun items => ⟨b, RQuant.opt⟩ :: items)
      | _ => (reParseItemsF fuel r).map (fun items => ⟨b, RQuant.single⟩ :: items)

/-- Parse a pattern body with sufficient fuel. -/
def reParseItems (p : List Char) : Option (List RItem) :=
  reParseItemsF (p.length + 1) p

/-- Model of Go `regexp.Compile` on the supported fragment; a leading
`(?i)` sets the case-insensitivity flag. -/
def goRegexCompile (pat : List Char) : Option GoRegex :=
  match pat with
  | '(' :: '?' :: 'i' :: ')' :: rest => (reParseItems rest).map (fun items => ⟨true, items⟩)
  | _ => (reParseItems pat).map (fun items => ⟨false, items⟩)

/-- Does atom `b` match the single character `c`?  Anchors never consume. -/
def baseMatchChar (ci : Bool) (b : RBase) (c : Char) : Bool :=
  match b with
  | RBase.anchorA => false
  | RBase.anchorZ => false
  | RBase.anyDot => c ≠ '\n'
  | RBase.lit l => if ci then l.toLower = c.toLower else l = c
  | RBase.digit => '0' ≤ c && c ≤ '9'

/-- Backtracking matcher: does the atom sequence match a prefix of `s`?
`atStart` records whether `s` is the whole subject (for `^`).  The fuel
dominates `items.length + s.length`, which every step decreases. -/
def seqMatchF (ci : Bool) : Nat → List RItem → List Char → Bool → Bool
  | _, [], _, _ => true
  | 0, _ :: _, _, _ => false
  | fuel + 1, ⟨b, RQuant.single⟩ :: items, s, atStart =>
    match b with
    | RBase.anchorA => atStart && seqMatchF ci fuel items s atStart
    | RBase.anchorZ => s.isEmpty && seqMatchF ci fuel items s atStart
    | _ =>
      match s with
      | [] => false
      | c :: s' => baseMatchChar ci b c && seqMatchF ci fuel items s' false
  | fuel + 1, ⟨b, RQuant.plus⟩ :: items, s, _ =>
    (match s with
     | [] => false
     | c :: s' => baseMatchChar ci b c && seqMatchF ci fuel (⟨b, RQuant.star⟩ :: items) s' false)
  | fuel + 1, ⟨b, RQuant.star⟩ :: items, s, atStart =>
    seqMatchF ci fuel items s atStart ||
      (match s with
       | [] => false
       | c :: s' => baseMatchChar ci b c && seqMatchF ci fuel (⟨b, RQuant.star⟩ :: items) s' false)
  | fuel + 1, ⟨b, RQuant.opt⟩ :: items, s, atStart =>
    seqMatchF ci fuel items s atStart ||
      (match s with
       | [] => false
       | c :: s' => baseMatchChar ci b c && seqMatchF ci fuel items s' false)

/-- Matcher entry point with sufficient fuel. -/
def seqMatch (ci : Bool) (items : List RItem) (s : List Char) (atStart : Bool) : Bool :=
  seqMatchF ci (items.length + s.length + 1) items s atStart

/-- Try to match starting at every position of the subject. -/
def reSearchFromF (ci : Bool) (items : List RItem) : Nat → List Char → Bool → Bool
  | 0, _, _ => false
  | fuel + 1, s, atStart =>
    seqMatch ci items s atStart ||
      match s with
      | [] => false
      | _ :: s' => reSearchFromF ci items fuel s' false

/-- Model of Go `Regexp.MatchString`: unanchored search. -/
def reMatchString (re : GoRegex) (s : GoStr) : Bool :=
  reSearchFromF re.ci re.items (s.length + 1) s true

/-! Data model: the `db` package structs.  Timestamps are abstract `Nat`
instants; `sql.NullString` keeps its two fields. -/

/-- Model of Go `sql.NullString`. -/
structure NullString where
  str : GoStr
  valid : Bool
deriving DecidableEq

/-- Model of `db.Project`. -/
structure DbProject where
  ID : GoStr
  Name : GoStr
  Description : GoStr
  IsActive : Bool
  IsFavourite : Bool
  CreatedAt : Nat
  UpdatedAt : Nat
deriving DecidableEq

/-- Model of `db.Rule`.  The `Rule` field is the kind; `Texts` is the JSON
array stored as a string. -/
structure DbRule where
  ID : GoStr
  Name : GoStr
  ProjectID : GoStr
  Rule : GoStr
  Texts : GoStr
  CaseSensitive : Bool
  CreatedAt : Nat
  UpdatedAt : Nat
deriving DecidableEq

/-- Model of `db.File`. -/
structure DbFile where
  ID : GoStr
  Path : GoStr
  Name : GoStr
  Ext : GoStr
  Size : Int
  Mtime : Nat
  ProjectID : NullString
  CreatedAt : Nat
  UpdatedAt : Nat
deriving DecidableEq

/-- Model of `classifier.CompiledRule`. -/
structure CompiledRule where
  RuleID : GoStr
  ProjectID : GoStr
  Kind : GoStr
  Texts : List GoStr
  CaseSensitive : Bool
  Regexp : Option GoRegex
  Priority : Int
deriving DecidableEq

/-! Classifier (embedding of the revision pinned by the package tests:
multi-text match loops, `(?i)` prepended for case-insensitive regex rules,
extension compared case-folded, raw-case extension stored). -/

/-- Embedding of `classifier.compileRule`: unmarshal the texts, compile the
(possibly `(?i)`-prefixed) pattern for regex rules, lower-case the texts of
case-insensitive non-regex rules. -/
def compileRule (r : DbRule) : Except GoStr CompiledRule :=
  match jsonUnmarshalStrings r.Texts with
  | none => Except.error ("invalid texts format".toList)
  | some texts =>
    let cr : CompiledRule :=
      ⟨r.ID, r.ProjectID, r.Rule, texts, r.CaseSensitive, none, 0⟩
    if cr.Kind = "regex".toList then
      match cr.Texts with
      | [] => Except.error ("regex rule requires at least one text pattern".toList)
      | t0 :: _ =>
        let pat := if cr.CaseSensitive then t0 else "(?i)".toList ++ t0
        match goRegexCompile pat with
        | none => Except.error ("invalid regex".toList)
        | some re => Except.ok { cr with Regexp := some re }
    else if cr.CaseSensitive then Except.ok cr
    else Except.ok { cr with Texts := cr.Texts.map goToLower }

/-- Embedding of `classifier.matches`: the per-rule match predicate.  The
test name is lower-cased for case-insensitive non-regex rules; each kind
scans all of the rule's texts; regex rules match the original-case name. -/
def ruleMatches (r : CompiledRule) (name ext : GoStr) : Bool :=
  let testName := if r.CaseSensitive ∨ r.Kind = "regex".toList then name else goToLower name
  if r.Kind = "starts_with".toList then
    r.Texts.any (fun t => t.isPrefixOf testName)
  else if r.Kind = "contains".toList then
    r.Texts.any (fun t => hasSub testName t)
  else if r.Kind = "ends_with".toList then
    r.Texts.any (fun t => t.isSuffixOf testName)
  else if r.Kind = "extension".toList then
    let testExt := if r.CaseSensitive then ext else goToLower ext
    r.Texts.any (fun t => testExt = t)
  else if r.Kind = "regex".toList then
    match r.Regexp with
    | some re => reMatchString re name
    | none => false
  else false

/-- The rule loop of `classifier.Classify`: project id and rule id of the
first matching rule, empty strings when none ruleMatches. -/
def firstMatch : List CompiledRule → GoStr → GoStr → GoStr × GoStr
  | [], _, _ => ([], [])
  | r :: rest, name, ext =>
    if ruleMatches r name ext then (r.ProjectID, r.RuleID) else firstMatch rest name ext

/-- Extension stored by `classifier.Classify`: `filepath.Ext` minus the
leading dot (this revision does not lower-case it). -/
def classifyExt (name : GoStr) : GoStr :=
  match goFilepathExt name with
  | [] => []
  | _ :: t => t

/-- Embedding of `classifier.Classify`: derive name metadata, pick the first
matching rule's project (falling back to the cached Incoming project id),
and build the `db.File` row that is handed to `store.File.Upsert`. -/
def Classify (rules : List CompiledRule) (incomingProjectID : GoStr)
    (absPath name : GoStr) (size : Int) (mtime : Nat) : DbFile :=
  let ext := classifyExt name
  let pr := firstMatch rules name ext
  let projectID := pr.1
  { ID := [], Path := absPath, Name := name, Ext := ext, Size := size, Mtime := mtime,
    ProjectID := if projectID ≠ [] then ⟨projectID, true⟩ else ⟨incomingProjectID, true⟩,
    CreatedAt := 0, UpdatedAt := 0 }

/-- The compile-and-sort step of `classifier.Reload`: rules failing
compilation are skipped, the rest are sorted ascending by priority. -/
def reloadSet (rules : List DbRule) : List CompiledRule :=
  List.insertionSort (fun a b => a.Priority ≤ b.Priority)
    (rules.filterMap (fun r => (compileRule r).toOption))

/-- Embedding of `classifier.Reload` given the outcome of
`rule_repo.ListActive`: a listing error propagates, otherwise the compiled
set is installed. -/
def Reload (listActiveResult : Except GoStr (List DbRule)) :
    Except GoStr (List CompiledRule) :=
  match listActiveResult with
  | Except.error e => Except.error e
  | Except.ok rules => Except.ok (reloadSet rules)

/-! Store: the file repository's upsert (embedding of the SQL
`INSERT ... ON CONFLICT(path) DO UPDATE` of `fileRepo.Upsert` over an
explicit table state), and the creation paths of the rule and project
repositories. -/

/-- The `ON CONFLICT` update arm: overwrite name, ext, size, mtime,
project_id and updated_at; id, path and created_at stay. -/
def upsertRow (existing f : DbFile) (now : Nat) : DbFile :=
  { existing with
    Name := f.Name
    Ext := f.Ext
    Size := f.Size
    Mtime := f.Mtime
    ProjectID := f.ProjectID
    UpdatedAt := now }

/-- Embedding of `fileRepo.Upsert` on a table of rows: `genId` models
`database.GenerateID()` (used when `f.ID` is empty), `now` the database
`CURRENT_TIMESTAMP`. -/
def fileUpsert : List DbFile → DbFile → GoStr → Nat → List DbFile
  | [], f, genId, now =>
    let fid := if f.ID = [] then genId else f.ID
    [{ f with ID := fid, CreatedAt := now, UpdatedAt := now }]
  | row :: rest, f, genId, now =>
    if row.Path = f.Path then upsertRow row f now :: rest
    else row :: fileUpsert rest f genId now

/-- Classification followed by the upsert it triggers. -/
def classifyAndUpsert (rules : List CompiledRule) (incomingProjectID : GoStr)
    (absPath name : GoStr) (size : Int) (mtime : Nat)
    (table : List DbFile) (genId : GoStr) (now : Nat) : List DbFile :=
  fileUpsert table (Classify rules incomingProjectID absPath name size mtime) genId now

/-! Validation package. -/

/-- The texts-normalization loop of the rule validator: trim every entry
and drop the ones that trim to nothing. -/
def normalizeTexts (texts : List GoStr) : List GoStr :=
  (texts.map goTrimSpace).filter (fun t => t ≠ [])

/-- Embedding of `validation.RuleValidator.Validate` (the validator wired
into the rule repository): trims the name in place, parses the texts JSON,
normalizes it (trim entries, drop empties, re-serialize), enforces the name
and texts bounds, and compiles the pattern of regex rules.  Returns the
mutated rule together with the error, if any. -/
def ruleValidate (r0 : DbRule) : DbRule × Option GoStr :=
  let r := { r0 with Name := goTrimSpace r0.Name }
  match jsonUnmarshalStrings r.Texts with
  | none => (r, some ("invalid texts format: must be a JSON array of strings".toList))
  | some texts =>
    let trimmedTexts := normalizeTexts texts
    if r.Name = [] then (r, some ("rule name cannot be empty".toList))
    else if utf8Len r.Name > 25 then (r, some ("rule name exceeds max length of 25".toList))
    else if trimmedTexts = [] then (r, some ("rule must have at least one text".toList))
    else if trimmedTexts.length > 20 then (r, some ("rule texts exceed max items of 20".toList))
    else if trimmedTexts.any (fun t => utf8Len t > 64) then
      (r, some ("rule text exceeds max length of 64".toList))
    else
      let r1 := { r with Texts := jsonMarshalStrings trimmedTexts }
      if r1.Rule = "regex".toList then
        match trimmedTexts with
        | [t0] =>
          match goRegexCompile t0 with
          | none => (r1, some ("invalid regex pattern".toList))
          | some _ => (r1, none)
        | _ => (r1, some ("regex rule must have exactly one pattern".toList))
      else (r1, none)

/-- Embedding of `validation.validateUUID` as a predicate (error-free iff):
non-blank, 36 bytes, exactly 4 hyphens. -/
def validateUUIDOk (id : GoStr) : Bool :=
  ¬ (goTrimSpace id = []) && utf8Len id = 36 && id.count '-' = 4

/-- The five allowed rule kinds (`validation.ValidRuleTypes`). -/
def validRuleKinds : List GoStr :=
  ["starts_with".toList, "contains".toList, "ends_with".toList,
   "extension".toList, "regex".toList]

/-- Embedding of `validation.validateProjectName` as a predicate. -/
def validateProjectNameOk (name : GoStr) : Bool :=
  let t := goTrimSpace name
  ¬ (t = []) && t.length ≤ 25 &&
    ¬ (t.any (fun c => c = '\t' ∨ c = '\n' ∨ c = '\r' ∨ c = Char.ofNat 12 ∨ c = Char.ofNat 11)) &&
    ¬ hasSub t ("  ".toList)

/-- Embedding of `validation.validateProjectDescription` as a predicate. -/
def validateProjectDescriptionOk (d : GoStr) : Bool :=
  d = [] ||
    (let t := goTrimSpace d
     t.length ≤ 200 && ¬ (t.any (fun c => c = Char.ofNat 12 ∨ c = Char.ofNat 11)))

/-- Embedding of `validation.ValidateProject` as a predicate. -/
def validateProjectOk (p : DbProject) : Bool :=
  validateProjectNameOk p.Name && validateProjectDescriptionOk p.Description &&
    (p.ID = [] || validateUUIDOk p.ID)

/-- Embedding of `database.normalizeString`. -/
def normalizeStringGo (s : GoStr) : GoStr :=
  if s = [] then s else goTrimSpace s

/-- Embedding of `database.NormalizeProjectData`. -/
def normalizeProjectData (p : DbProject) : DbProject :=
  { p with Name := normalizeStringGo p.Name, Description := normalizeStringGo p.Description }

/-- Embedding of `database.PrepareProjectForCreation`: a fresh id only when
the caller supplied none; creation timestamps set. -/
def prepareProjectForCreation (p : DbProject) (freshId : GoStr) (now : Nat) : DbProject :=
  { p with ID := if p.ID = [] then freshId else p.ID, CreatedAt := now, UpdatedAt := now }

/-- Embedding of `projectRepo.Create` up to the inserted row: validate,
normalize, prepare.  `none` models a validation failure (nothing inserted). -/
def projectRepoCreate (p : DbProject) (freshId : GoStr) (now : Nat) : Option DbProject :=
  if validateProjectOk p then
    some (prepareProjectForCreation (normalizeProjectData p) freshId now)
  else none

/-- Embedding of `ruleRepo.Create` up to the inserted row: run the rule
validator, then unconditionally overwrite the id with a fresh one. -/
def ruleRepoCreate (r : DbRule) (freshId : GoStr) : Option DbRule :=
  match ruleValidate r with
  | (_, some _) => none
  | (r1, none) => some { r1 with ID := freshId }

/-! Specification-side predicates (used to state the claims; written from
the spec's words, for comparison against the embedded code). -/

/-- Control characters named by the spec's rule-name check. -/
def specControlChar (c : Char) : Bool :=
  c = '\t' ∨ c = '\n' ∨ c = '\r' ∨ c = Char.ofNat 12 ∨ c = Char.ofNat 11

/-- The rule-validity criterion exactly as claim C7 words it: name trimmed
to 1..25 characters with no control characters, project id a UUID, an
allowed kind, texts a JSON array whose trimmed non-empty entries number
1..20 at up to 64 characters each, and a regex kind carrying exactly one
compiling pattern. -/
def specRuleValidC7 (r : DbRule) : Prop :=
  1 ≤ (goTrimSpace r.Name).length ∧ (goTrimSpace r.Name).length ≤ 25 ∧
  (goTrimSpace r.Name).all (fun c => ¬ specControlChar c) ∧
  validateUUIDOk r.ProjectID = true ∧
  r.Rule ∈ validRuleKinds ∧
  (∃ texts, jsonUnmarshalStrings r.Texts = some texts ∧
    (let T := normalizeTexts texts
     1 ≤ T.length ∧ T.length ≤ 20 ∧ (∀ t ∈ T, t.length ≤ 64) ∧
       (r.Rule = "regex".toList → ∃ t0, T = [t0] ∧ (goRegexCompile t0).isSome = true)))


/-! Concrete instances used by the claim witnesses and counterexamples. -/

/-- Concatenation of `, "item"` encodings closed by `]`: the shape of a
marshalled array after its first element. -/
def encTail (ss : List GoStr) : List Char :=
  (ss.map (fun s => ',' :: encodeJStr s)).flatten ++ [']']

/-- A rule whose kind is not one of the five allowed values, whose project
id is not a UUID and whose name contains a tab. -/
def badRuleC7 : DbRule where
  ID := []
  Name := "My".toList ++ [Char.ofNat 9] ++ "Rule".toList
  ProjectID := "x".toList
  Rule := "bogus".toList
  Texts := "[\"a\"]".toList
  CaseSensitive := false
  CreatedAt := 0
  UpdatedAt := 0

/-- A valid rule whose name carries surrounding whitespace. -/
def cxRuleC8 : DbRule where
  ID := []
  Name := "  Tidy  ".toList
  ProjectID := "550e8400-e29b-41d4-a716-446655440000".toList
  Rule := "contains".toList
  Texts := "[\"a\"]".toList
  CaseSensitive := false
  CreatedAt := 0
  UpdatedAt := 0

/-- The case-insensitive regex rule of the spec's scenario 6. -/
def exampleRegexRule : DbRule where
  ID := "r1".toList
  Name := "re".toList
  ProjectID := "p1".toList
  Rule := "regex".toList
  Texts := "[\"^foo\\\\d+\"]".toList
  CaseSensitive := false
  CreatedAt := 0
  UpdatedAt := 0

/-- The compiled form of `(?i)^foo\d+`. -/
def reC2 : GoRegex where
  ci := true
  items :=
    [⟨RBase.anchorA, RQuant.single⟩, ⟨RBase.lit 'f', RQuant.single⟩,
     ⟨RBase.lit 'o', RQuant.single⟩, ⟨RBase.lit 'o', RQuant.single⟩,
     ⟨RBase.digit, RQuant.plus⟩]

/-- A compiled multi-text starts_with rule (second text is the matching
one). -/
def wRuleC1 : CompiledRule where
  RuleID := "r1".toList
  ProjectID := "pA".toList
  Kind := "starts_with".toList
  Texts := ["inv".toList, "rep".toList]
  CaseSensitive := false
  Regexp := none
  Priority := 0

/-- A compiled rule that does not match `notes.txt`. -/
def crMissC3 : CompiledRule where
  RuleID := "rA".toList
  ProjectID := "pA".toList
  Kind := "starts_with".toList
  Texts := ["zzz".toList]
  CaseSensitive := false
  Regexp := none
  Priority := 0

/-- A compiled rule that matches `notes.txt`. -/
def crHitC3 : CompiledRule where
  RuleID := "rB".toList
  ProjectID := "pB".toList
  Kind := "starts_with".toList
  Texts := ["not".toList]
  CaseSensitive := false
  Regexp := none
  Priority := 0

/-- An active rule that compiles. -/
def goodRuleC5 : DbRule where
  ID := "rg".toList
  Name := "good".toList
  ProjectID := "pg".toList
  Rule := "contains".toList
  Texts := "[\"a\"]".toList
  CaseSensitive := true
  CreatedAt := 0
  UpdatedAt := 0

/-- An active regex rule whose pattern does not compile. -/
def badRuleC5 : DbRule where
  ID := "rb".toList
  Name := "bad".toList
  ProjectID := "pb".toList
  Rule := "regex".toList
  Texts := "[\"(\"]".toList
  CaseSensitive := true
  CreatedAt := 0
  UpdatedAt := 0

/-- The compiled form of the good rule above. -/
def cGoodC5 : CompiledRule where
  RuleID := "rg".toList
  ProjectID := "pg".toList
  Kind := "contains".toList
  Texts := ["a".toList]
  CaseSensitive := true
  Regexp := none
  Priority := 0

/-- An existing catalog row. -/
def rowC6 : DbFile where
  ID := "f1".toList
  Path := "/d/a.txt".toList
  Name := "a.txt".toList
  Ext := "txt".toList
  Size := 1
  Mtime := 1
  ProjectID := ⟨"p1".toList, true⟩
  CreatedAt := 11
  UpdatedAt := 11

/-- A re-classification of the same path with new metadata. -/
def fNewC6 : DbFile where
  ID := []
  Path := "/d/a.txt".toList
  Name := "a.txt".toList
  Ext := "txt".toList
  Size := 2
  Mtime := 9
  ProjectID := ⟨"p2".toList, true⟩
  CreatedAt := 0
  UpdatedAt := 0

/-- A valid rule whose texts need normalization. -/
def wRuleC9 : DbRule where
  ID := []
  Name := "w9".toList
  ProjectID := "550e8400-e29b-41d4-a716-446655440000".toList
  Rule := "contains".toList
  Texts := "[\" a \", \"\", \"b\"]".toList
  CaseSensitive := false
  CreatedAt := 0
  UpdatedAt := 0

/-- A valid rule created with a caller-supplied id. -/
def wRuleC10 : DbRule where
  ID := "caller-id".toList
  Name := "w10".toList
  ProjectID := "550e8400-e29b-41d4-a716-446655440000".toList
  Rule := "contains".toList
  Texts := "[\"a\"]".toList
  CaseSensitive := false
  CreatedAt := 0
  UpdatedAt := 0

/-- A valid project created with a caller-supplied id. -/
def wProjC10 : DbProject where
  ID := "650e8400-e29b-41d4-a716-446655440000".toList
  Name := "Proj".toList
  Description := []
  IsActive := true
  IsFavourite := false
  CreatedAt := 0
  UpdatedAt := 0

/-! Helper lemmas. -/

/-- The Contains scan agrees with the sublist-infix relation. -/
theorem hasSub_iff (s sub : GoStr) : hasSub s sub = true ↔ sub <:+: s := by
  induction s with
  | nil => simp [hasSub, List.isPrefixOf_iff_prefix]
  | cons c t ih =>
    simp only [hasSub, Bool.or_eq_true, List.isPrefixOf_iff_prefix, ih,
      List.infix_cons_iff]

/-- Claim C1: for a compiled rule of kind starts_with, contains or
ends_with, the match predicate holds exactly when some element of the
rule's texts is respectively a prefix, an infix or a suffix of the test
name, the test name being the file name lower-cased when the rule is
case-insensitive and unchanged otherwise. -/
theorem claim_C1 (r : CompiledRule) (name ext : GoStr) :
    (r.Kind = "starts_with".toList →
      (ruleMatches r name ext = true ↔
        ∃ t ∈ r.Texts, t <+: (if r.CaseSensitive then name else goToLower name))) ∧
    (r.Kind = "contains".toList →
      (ruleMatches r name ext = true ↔
        ∃ t ∈ r.Texts, t <:+: (if r.CaseSensitive then name else goToLower name))) ∧
    (r.Kind = "ends_with".toList →
      (ruleMatches r name ext = true ↔
        ∃ t ∈ r.Texts, t <:+ (if r.CaseSensitive then name else goToLower name))) := by
  refine ⟨fun hk => ?_, fun hk => ?_, fun hk => ?_⟩ <;>
    simp only [ruleMatches, hk] <;>
    simp [List.any_eq_true, List.isPrefixOf_iff_prefix, hasSub_iff,
      List.isSuffixOf_iff_suffix,
      show ¬(("starts_with".toList : List Char) = "regex".toList) from by decide,
      show ¬(("contains".toList : List Char) = "regex".toList) from by decide,
      show ¬(("ends_with".toList : List Char) = "regex".toList) from by decide,
      show ¬(("contains".toList : List Char) = "starts_with".toList) from by decide,
      show ¬(("ends_with".toList : List Char) = "starts_with".toList) from by decide,
      show ¬(("ends_with".toList : List Char) = "contains".toList) from by decide]

/-- Witness for C1: a two-text starts_with rule matched by its second text
on a case-folded name. -/
theorem claim_C1_witness :
    ∃ t ∈ wRuleC1.Texts,
      t <+: (if wRuleC1.CaseSensitive then "Report_final.txt".toList
             else goToLower ("Report_final.txt".toList)) :=
  ((claim_C1 wRuleC1 ("Report_final.txt".toList) ("txt".toList)).1 (by decide)).mp (by decide)

/-- Claim C4 (evaluated at the failing input): classifying `report.PDF`
stores the extension `PDF` with its original case (not the lower-cased
`pdf` the specification fixes), while the name keeps its original case. -/
theorem claim_C4 :
    (Classify [] ("inc".toList) ("/downloads/report.PDF".toList)
        ("report.PDF".toList) 10 5).Ext = "PDF".toList ∧
    (Classify [] ("inc".toList) ("/downloads/report.PDF".toList)
        ("report.PDF".toList) 10 5).Name = "report.PDF".toList ∧
    goToLower ("PDF".toList) = "pdf".toList ∧
    (Classify [] ("inc".toList) ("/downloads/report.PDF".toList)
        ("report.PDF".toList) 10 5).Ext ≠ "pdf".toList := by
  refine ⟨by decide, by decide, by decide, by decide⟩

/-- Claim C6: the upsert is keyed on path.  Absent path: the row is
appended, with the caller's id kept when present and the generated one used
otherwise, and fresh timestamps.  Present path: exactly name, ext, size,
mtime, project id and updated_at are overwritten, while the stored id,
path and created_at are preserved. -/
theorem claim_C6 (table : List DbFile) (f : DbFile) (genId : GoStr) (now : Nat) :
    ((∀ row ∈ table, row.Path ≠ f.Path) →
      ∃ g, fileUpsert table f genId now = table ++ [g] ∧
        g.ID = (if f.ID = [] then genId else f.ID) ∧ g.Path = f.Path ∧ g.Name = f.Name ∧
        g.Ext = f.Ext ∧ g.Size = f.Size ∧ g.Mtime = f.Mtime ∧ g.ProjectID = f.ProjectID ∧
        g.CreatedAt = now ∧ g.UpdatedAt = now) ∧
    (∀ pre row post, table = pre ++ row :: post → row.Path = f.Path →
      (∀ q ∈ pre, q.Path ≠ f.Path) →
      ∃ u, fileUpsert table f genId now = pre ++ u :: post ∧
        u.ID = row.ID ∧ u.CreatedAt = row.CreatedAt ∧ u.Path = row.Path ∧
        u.Name = f.Name ∧ u.Ext = f.Ext ∧ u.Size = f.Size ∧ u.Mtime = f.Mtime ∧
        u.ProjectID = f.ProjectID ∧ u.UpdatedAt = now) := by
  constructor
  · induction table with
    | nil =>
      intro _
      exact ⟨_, rfl, rfl, rfl, rfl, rfl, rfl, rfl, rfl, rfl, rfl⟩
    | cons row rest ih =>
      intro h
      have hne : row.Path ≠ f.Path := h row (by simp)
      obtain ⟨g, hg, hrest⟩ := ih (fun q hq => h q (by simp [hq]))
      refine ⟨g, ?_, hrest⟩
      simp [fileUpsert, hne, hg]
  · intro pre row post htab hpath hpre
    subst htab
    induction pre with
    | nil =>
      refine ⟨upsertRow row f now, ?_, rfl, rfl, rfl, rfl, rfl, rfl, rfl, rfl, rfl⟩
      simp [fileUpsert, hpath]
    | cons q pre' ih =>
      have hq : q.Path ≠ f.Path := hpre q (by simp)
      obtain ⟨u, hu, hrest⟩ := ih (fun x hx => hpre x (by simp [hx]))
      refine ⟨u, ?_, hrest⟩
      simp only [List.cons_append, fileUpsert, if_neg hq]
      exact congrArg (fun l => q :: l) hu

/-- Witness for C6: both arms at a concrete one-row table. -/
theorem claim_C6_witness :
    (∃ g, fileUpsert [] fNewC6 ("gen".toList) 42 = [] ++ [g] ∧
      g.ID = (if fNewC6.ID = [] then "gen".toList else fNewC6.ID) ∧ g.Path = fNewC6.Path ∧
      g.Name = fNewC6.Name ∧ g.Ext = fNewC6.Ext ∧ g.Size = fNewC6.Size ∧
      g.Mtime = fNewC6.Mtime ∧ g.ProjectID = fNewC6.ProjectID ∧
      g.CreatedAt = 42 ∧ g.UpdatedAt = 42) ∧
    (∃ u, fileUpsert [rowC6] fNewC6 ("gen".toList) 42 = [] ++ u :: [] ∧
      u.ID = rowC6.ID ∧ u.CreatedAt = rowC6.CreatedAt ∧ u.Path = rowC6.Path ∧
      u.Name = fNewC6.Name ∧ u.Ext = fNewC6.Ext ∧ u.Size = fNewC6.Size ∧
      u.Mtime = fNewC6.Mtime ∧ u.ProjectID = fNewC6.ProjectID ∧ u.UpdatedAt = 42) :=
  ⟨(claim_C6 [] fNewC6 ("gen".toList) 42).1 (by decide),
   (claim_C6 [rowC6] fNewC6 ("gen".toList) 42).2 [] rowC6 [] rfl (by decide) (by decide)⟩

/-- Claim C10: rule creation overwrites the rule's id with the freshly
generated one, discarding any caller-supplied id, whereas project creation
keeps a caller-supplied id and uses the fresh one only when the caller
supplied none. -/
theorem claim_C10 (r : DbRule) (p : DbProject) (freshId : GoStr) (now : Nat) :
    (∀ r1, ruleRepoCreate r freshId = some r1 → r1.ID = freshId) ∧
    (freshId ≠ r.ID → ∀ r1, ruleRepoCreate r freshId = some r1 → r1.ID ≠ r.ID) ∧
    (∀ p1, projectRepoCreate p freshId now = some p1 →
      p1.ID = (if p.ID = [] then freshId else p.ID)) := by
  refine ⟨?_, ?_, ?_⟩
  · intro r1 h
    unfold ruleRepoCreate at h
    rcases hv : ruleValidate r with ⟨r2, e⟩
    rw [hv] at h
    cases e with
    | none => cases h; rfl
    | some _ => cases h
  · intro hne r1 h
    unfold ruleRepoCreate at h
    rcases hv : ruleValidate r with ⟨r2, e⟩
    rw [hv] at h
    cases e with
    | none =>
      cases h
      simpa using hne
    | some _ => cases h
  · intro p1 h
    unfold projectRepoCreate at h
    by_cases hv : validateProjectOk p = true
    · rw [if_pos hv] at h
      cases h
      simp [prepareProjectForCreation, normalizeProjectData]
    · rw [if_neg hv] at h
      cases h

/-- Witness for C10: a caller-supplied rule id is discarded while the same
shaped caller-supplied project id is kept. -/
theorem claim_C10_witness :
    (∀ r1, ruleRepoCreate wRuleC10 ("fresh-id".toList) = some r1 → r1.ID = "fresh-id".toList) ∧
    (∀ p1, projectRepoCreate wProjC10 ("fresh-id".toList) 7 = some p1 →
      p1.ID = (if wProjC10.ID = [] then "fresh-id".toList else wProjC10.ID)) :=
  ⟨(claim_C10 wRuleC10 wProjC10 ("fresh-id".toList) 7).1,
   (claim_C10 wRuleC10 wProjC10 ("fresh-id".toList) 7).2.2⟩

/-- Claim C2: for a case-insensitive regex rule whose single pattern
compiles, compilation prepends the case-insensitivity flag to the pattern,
matching applies the compiled regex to the original-case name, and
consequently the rule `^foo\d+` with case_sensitive=false matches
`FOO123.bin`. -/
theorem claim_C2 :
    (∀ (rule : DbRule) (t0 : GoStr) (rest : List GoStr) (re : GoRegex),
      rule.Rule = "regex".toList → rule.CaseSensitive = false →
      jsonUnmarshalStrings rule.Texts = some (t0 :: rest) →
      goRegexCompile ("(?i)".toList ++ t0) = some re →
      compileRule rule =
        Except.ok ⟨rule.ID, rule.ProjectID, rule.Rule, t0 :: rest, false, some re, 0⟩ ∧
      ∀ name ext,
        ruleMatches ⟨rule.ID, rule.ProjectID, rule.Rule, t0 :: rest, false, some re, 0⟩ name ext
          = reMatchString re name) ∧
    (∃ cr, compileRule exampleRegexRule = Except.ok cr ∧
      ruleMatches cr ("FOO123.bin".toList) ("bin".toList) = true) := by
  constructor
  · intro rule t0 rest re hk hcs htexts hre
    constructor
    · have hre' : goRegexCompile ('(' :: '?' :: 'i' :: ')' :: t0) = some re := by
        simpa using hre
      simp [compileRule, htexts, hk, hcs, hre']
    · intro name ext
      simp [ruleMatches, hk,
        show ¬(("regex".toList : List Char) = "starts_with".toList) from by decide,
        show ¬(("regex".toList : List Char) = "contains".toList) from by decide,
        show ¬(("regex".toList : List Char) = "ends_with".toList) from by decide,
        show ¬(("regex".toList : List Char) = "extension".toList) from by decide]
  · exact ⟨_, rfl, by decide⟩

/-- Witness for C2 at the concrete rule of spec scenario 6 and the compiled
regex value of its flag-prefixed pattern. -/
theorem claim_C2_witness :
    compileRule exampleRegexRule =
      Except.ok ⟨exampleRegexRule.ID, exampleRegexRule.ProjectID, exampleRegexRule.Rule,
        ["^foo\\d+".toList], false, some reC2, 0⟩ :=
  ((claim_C2.1 exampleRegexRule ("^foo\\d+".toList) [] reC2 (by decide) (by decide)
    (by decide) (by decide)).1)

/-- The Classify rule loop returns the first matching rule's ids, or empty
strings when no rule matches. -/
theorem firstMatch_spec (rules : List CompiledRule) (name ext : GoStr) :
    (∃ pre r post, rules = pre ++ r :: post ∧
      (∀ q ∈ pre, ruleMatches q name ext = false) ∧
      ruleMatches r name ext = true ∧
      firstMatch rules name ext = (r.ProjectID, r.RuleID)) ∨
    ((∀ q ∈ rules, ruleMatches q name ext = false) ∧
      firstMatch rules name ext = ([], [])) := by
  induction rules with
  | nil => exact Or.inr ⟨by simp, rfl⟩
  | cons r rest ih =>
    by_cases h : ruleMatches r name ext = true
    · exact Or.inl ⟨[], r, rest, rfl, by simp, h, by simp [firstMatch, h]⟩
    · have hb : ruleMatches r name ext = false := by simpa using h
      rcases ih with ⟨pre, rr, post, hsplit, hpre, hrr, heq⟩ | ⟨hall, heq⟩
      · refine Or.inl ⟨r :: pre, rr, post, by simp [hsplit], ?_, hrr, by simp [firstMatch, hb, heq]⟩
        intro q hq
        rcases List.mem_cons.mp hq with rfl | hq'
        · exact hb
        · exact hpre q hq'
      · refine Or.inr ⟨?_, by simp [firstMatch, hb, heq]⟩
        intro q hq
        rcases List.mem_cons.mp hq with rfl | hq'
        · exact hb
        · exact hall q hq'

/-- Claim C3: Classify fills the row from the path metadata, walks the rule
snapshot in order giving the project of the first matching rule, falls back
to the cached Incoming project id when nothing matches, and hands exactly
that row to the file upsert. -/
theorem claim_C3 (rules : List CompiledRule) (incomingID absPath name : GoStr)
    (size : Int) (mtime : Nat)
    (hp : ∀ r ∈ rules, r.ProjectID ≠ ([] : GoStr)) :
    (Classify rules incomingID absPath name size mtime).Path = absPath ∧
    (Classify rules incomingID absPath name size mtime).Name = name ∧
    (Classify rules incomingID absPath name size mtime).Ext = classifyExt name ∧
    (Classify rules incomingID absPath name size mtime).Size = size ∧
    (Classify rules incomingID absPath name size mtime).Mtime = mtime ∧
    (Classify rules incomingID absPath name size mtime).ProjectID.valid = true ∧
    ((∃ pre r post, rules = pre ++ r :: post ∧
        (∀ q ∈ pre, ruleMatches q name (classifyExt name) = false) ∧
        ruleMatches r name (classifyExt name) = true ∧
        (Classify rules incomingID absPath name size mtime).ProjectID.str = r.ProjectID) ∨
      ((∀ q ∈ rules, ruleMatches q name (classifyExt name) = false) ∧
        (Classify rules incomingID absPath name size mtime).ProjectID.str = incomingID)) ∧
    (∀ table genId now,
      classifyAndUpsert rules incomingID absPath name size mtime table genId now
        = fileUpsert table (Classify rules incomingID absPath name size mtime) genId now) := by
  refine ⟨rfl, rfl, rfl, rfl, rfl, ?_, ?_, fun _ _ _ => rfl⟩
  · rcases firstMatch_spec rules name (classifyExt name) with
      ⟨pre, r, post, hsplit, hpre, hr, heq⟩ | ⟨hall, heq⟩
    · have hne : r.ProjectID ≠ ([] : GoStr) := hp r (by simp [hsplit])
      simp [Classify, heq, hne]
    · simp [Classify, heq]
  · rcases firstMatch_spec rules name (classifyExt name) with
      ⟨pre, r, post, hsplit, hpre, hr, heq⟩ | ⟨hall, heq⟩
    · have hne : r.ProjectID ≠ ([] : GoStr) := hp r (by simp [hsplit])
      exact Or.inl ⟨pre, r, post, hsplit, hpre, hr, by simp [Classify, heq, hne]⟩
    · exact Or.inr ⟨hall, by simp [Classify, heq]⟩

/-- Witness for C3: a two-rule snapshot where the second rule is the first
match for `notes.txt`. -/
theorem claim_C3_witness :
    (Classify [crMissC3, crHitC3] ("inc".toList) ("/d/notes.txt".toList)
        ("notes.txt".toList) 3 4).Path = "/d/notes.txt".toList ∧
    (Classify [crMissC3, crHitC3] ("inc".toList) ("/d/notes.txt".toList)
        ("notes.txt".toList) 3 4).ProjectID.valid = true :=
  ⟨(claim_C3 [crMissC3, crHitC3] ("inc".toList) ("/d/notes.txt".toList)
      ("notes.txt".toList) 3 4 (by decide)).1,
   (claim_C3 [crMissC3, crHitC3] ("inc".toList) ("/d/notes.txt".toList)
      ("notes.txt".toList) 3 4 (by decide)).2.2.2.2.2.1⟩

/-- Claim C5: reload is total on the listing result.  It never returns an
error for a compilable-or-not rule list; the installed set holds exactly
the successfully compiled rules, each failing rule being skipped. -/
theorem claim_C5 (rules : List DbRule) :
    Reload (Except.ok rules) = Except.ok (reloadSet rules) ∧
    (∀ e, Reload (Except.ok rules) ≠ Except.error e) ∧
    (∀ r ∈ rules, ∀ cr, compileRule r = Except.ok cr → cr ∈ reloadSet rules) ∧
    (∀ cr ∈ reloadSet rules, ∃ r ∈ rules, compileRule r = Except.ok cr) := by
  have hmem : ∀ x : CompiledRule,
      x ∈ reloadSet rules ↔ x ∈ rules.filterMap (fun r => (compileRule r).toOption) :=
    fun x => (List.perm_insertionSort _ _).mem_iff
  have htoOpt : ∀ (r : DbRule) (cr : CompiledRule),
      (compileRule r).toOption = some cr ↔ compileRule r = Except.ok cr := by
    intro r cr
    cases h : compileRule r <;> simp [Except.toOption]
  refine ⟨rfl, ?_, ?_, ?_⟩
  · intro e h
    simp [Reload] at h
  · intro r hr cr hok
    rw [hmem, List.mem_filterMap]
    exact ⟨r, hr, (htoOpt r cr).mpr hok⟩
  · intro cr hcr
    rw [hmem, List.mem_filterMap] at hcr
    obtain ⟨r, hr, hsome⟩ := hcr
    exact ⟨r, hr, (htoOpt r cr).mp hsome⟩

/-- Witness for C5: with one good and one non-compiling rule, the compiled
good rule is installed. -/
theorem claim_C5_witness : cGoodC5 ∈ reloadSet [goodRuleC5, badRuleC5] :=
  (claim_C5 [goodRuleC5, badRuleC5]).2.2.1 goodRuleC5 (by decide) cGoodC5 rfl

/-- Hex digits decode back to their value. -/
theorem hexVal_hexDig_all : ∀ m, m < 16 → hexVal (hexDig m) = some m := by decide

set_option maxHeartbeats 1000000 in
/-- Decoding inverts the escaping of a single character. -/
theorem parseJStrF_escape (c : Char) (fuel : Nat) (tail : List Char) :
    parseJStrF (fuel + 1) (escapeChar c ++ tail) =
      (parseJStrF fuel tail).map (fun p => (c :: p.1, p.2)) := by
  by_cases h1 : c = '"'
  · subst h1; simp +decide [escapeChar, parseJStrF]
  by_cases h2 : c = '\\'
  · subst h2; simp +decide [escapeChar, parseJStrF]
  by_cases h3 : c = '\n'
  · subst h3; simp +decide [escapeChar, parseJStrF]
  by_cases h4 : c = '\r'
  · subst h4; simp +decide [escapeChar, parseJStrF]
  by_cases h5 : c = '\t'
  · subst h5; simp +decide [escapeChar, parseJStrF]
  by_cases h6 : c = '<'
  · subst h6; simp +decide [escapeChar, parseJStrF, readHex4, hexVal]
  by_cases h7 : c = '>'
  · subst h7; simp +decide [escapeChar, parseJStrF, readHex4, hexVal]
  by_cases h8 : c = '&'
  · subst h8; simp +decide [escapeChar, parseJStrF, readHex4, hexVal]
  by_cases h9 : c.toNat < 32
  · have e1 : hexVal (hexDig (c.toNat / 16)) = some (c.toNat / 16) :=
      hexVal_hexDig_all _ (by omega)
    have e2 : hexVal (hexDig (c.toNat % 16)) = some (c.toNat % 16) :=
      hexVal_hexDig_all _ (by omega)
    have hn : ((0 * 16 + 0) * 16 + c.toNat / 16) * 16 + c.toNat % 16 = c.toNat := by omega
    have hv : Nat.isValidChar c.toNat := Or.inl (by omega)
    simp only [escapeChar, if_neg h1, if_neg h2, if_neg h3, if_neg h4, if_neg h5,
      if_neg h6, if_neg h7, if_neg h8, if_pos h9]
    have e0 : hexVal '0' = some 0 := by decide
    simp +decide [parseJStrF, readHex4, e0, e1, e2]
    rw [show c.toNat / 16 * 16 + c.toNat % 16 = c.toNat from by omega, if_pos hv,
      Char.ofNat_toNat]
  by_cases h10 : c.toNat = 0x2028
  · have hc : c = Char.ofNat 0x2028 := by rw [← Char.ofNat_toNat c, h10]
    subst hc; simp +decide [escapeChar, parseJStrF, readHex4, hexVal]
  by_cases h11 : c.toNat = 0x2029
  · have hc : c = Char.ofNat 0x2029 := by rw [← Char.ofNat_toNat c, h11]
    subst hc; simp +decide [escapeChar, parseJStrF, readHex4, hexVal]
  · simp only [escapeChar, if_neg h1, if_neg h2, if_neg h3, if_neg h4, if_neg h5,
      if_neg h6, if_neg h7, if_neg h8, if_neg h9, if_neg h10, if_neg h11]
    simp [parseJStrF, h1, h2, h9]

/-- An escaped character is never empty. -/
theorem escapeChar_ne_nil (c : Char) : escapeChar c ≠ [] := by
  intro h
  have h1 := parseJStrF_escape c 1 ['"']
  rw [h] at h1
  simp +decide [parseJStrF] at h1

/-- An escaped character has positive length. -/
theorem escapeChar_length_pos (c : Char) : 0 < (escapeChar c).length :=
  List.length_pos.mpr (escapeChar_ne_nil c)

/-- Decoding inverts the escaping of a whole string body, given fuel. -/
theorem parseJStrF_encode (s : GoStr) : ∀ (fuel : Nat) (tail : List Char),
    (escBody s).length < fuel →
    parseJStrF fuel (escBody s ++ '"' :: tail) = some (s, tail) := by
  induction s with
  | nil =>
    intro fuel tail hf
    match fuel, hf with
    | f + 1, _ => simp +decide [escBody, parseJStrF]
  | cons c s' ih =>
    intro fuel tail hf
    have hb : escBody (c :: s') = escapeChar c ++ escBody s' := by
      simp [escBody]
    rw [hb] at hf ⊢
    have hcl := escapeChar_length_pos c
    match fuel, hf with
    | f + 1, hf =>
      rw [List.append_assoc, parseJStrF_escape]
      rw [ih f tail (by simp [List.length_append] at hf ⊢; omega)]
      rfl

/-- Decoding inverts the escaping of a whole string body. -/
theorem parseJStr_encode (s : GoStr) (tail : List Char) :
    parseJStr (escBody s ++ '"' :: tail) = some (s, tail) := by
  unfold parseJStr
  exact parseJStrF_encode s _ tail (by simp [List.length_append]; omega)

/-- Unfolding of the encoded array tail. -/
theorem encTail_cons (s : GoStr) (ss : List GoStr) :
    encTail (s :: ss) = ',' :: (encodeJStr s ++ encTail ss) := by
  simp [encTail]

/-- The array-tail parser inverts the array-tail encoder. -/
theorem parseTailAux_encode (ss : List GoStr) : ∀ (fuel : Nat) (tail : List Char),
    (encTail ss).length ≤ fuel →
    parseTailAux fuel (encTail ss ++ tail) = some (ss, tail) := by
  induction ss with
  | nil =>
    intro fuel tail hf
    have he : encTail [] = [']'] := by simp +decide [encTail]
    rw [he] at hf ⊢
    match fuel, hf with
    | f + 1, _ =>
      simp +decide [parseTailAux, List.dropWhile,
        show jsonWsChar ']' = false from by decide]
  | cons s ss' ih =>
    intro fuel tail hf
    rw [encTail_cons] at hf ⊢
    match fuel, hf with
    | f + 1, hf =>
      have hb : (encTail ss').length ≤ f := by
        simp [List.length_append] at hf
        omega
      have hstep :
          (',' :: (encodeJStr s ++ encTail ss')) ++ tail =
            ',' :: ('"' :: (escBody s ++ '"' :: (encTail ss' ++ tail))) := by
        simp [encodeJStr]
      rw [hstep]
      simp only [parseTailAux,
        show List.dropWhile jsonWsChar
            (',' :: ('"' :: (escBody s ++ '"' :: (encTail ss' ++ tail)))) =
          ',' :: ('"' :: (escBody s ++ '"' :: (encTail ss' ++ tail))) from by
          simp [List.dropWhile, show jsonWsChar ',' = false from by decide],
        show List.dropWhile jsonWsChar ('"' :: (escBody s ++ '"' :: (encTail ss' ++ tail))) =
          '"' :: (escBody s ++ '"' :: (encTail ss' ++ tail)) from by
          simp [List.dropWhile, show jsonWsChar '"' = false from by decide],
        parseJStr_encode s (encTail ss' ++ tail),
        ih f tail hb]

/-- The encoded items of a non-empty array split into a head literal and a
tail. -/
theorem jsonEncItems_closing (s : GoStr) (ss : List GoStr) :
    jsonEncItems (s :: ss) ++ [']'] = encodeJStr s ++ encTail ss := by
  induction ss generalizing s with
  | nil => simp +decide [jsonEncItems, encTail]
  | cons s2 ss2 ih =>
    have h1 : jsonEncItems (s :: s2 :: ss2) = encodeJStr s ++ ',' :: jsonEncItems (s2 :: ss2) :=
      rfl
    rw [h1, encTail_cons, List.append_assoc]
    simp only [List.cons_append]
    rw [← ih s2]

/-- Unmarshalling inverts marshalling on string arrays: the JSON round
trip. -/
theorem jsonRoundTrip (l : List GoStr) :
    jsonUnmarshalStrings (jsonMarshalStrings l) = some l := by
  cases l with
  | nil => decide
  | cons s ss =>
    have hm : jsonMarshalStrings (s :: ss) = '[' :: '"' :: (escBody s ++ '"' :: encTail ss) := by
      rw [jsonMarshalStrings, jsonEncItems_closing]
      simp [encodeJStr]
    rw [hm]
    have hd1 : List.dropWhile jsonWsChar ('[' :: '"' :: (escBody s ++ '"' :: encTail ss)) =
        '[' :: '"' :: (escBody s ++ '"' :: encTail ss) := by
      simp [List.dropWhile, show jsonWsChar '[' = false from by decide]
    have hd2 : List.dropWhile jsonWsChar ('"' :: (escBody s ++ '"' :: encTail ss)) =
        '"' :: (escBody s ++ '"' :: encTail ss) := by
      simp [List.dropWhile, show jsonWsChar '"' = false from by decide]
    have hps := parseJStr_encode s (encTail ss)
    have hpt : parseTailAux ((encTail ss).length + 1) (encTail ss) = some (ss, []) := by
      have h := parseTailAux_encode ss ((encTail ss).length + 1) [] (by omega)
      simpa using h
    simp [jsonUnmarshalStrings, List.dropWhile, hps, hpt,
      show jsonWsChar '[' = false from by decide,
      show jsonWsChar '"' = false from by decide]

/-- TrimSpace as a left-drop followed by a right-drop. -/
theorem goTrimSpace_eq_rdrop (s : GoStr) :
    goTrimSpace s = List.rdropWhile goIsSpaceChar (s.dropWhile goIsSpaceChar) := rfl

/-- TrimSpace is idempotent. -/
theorem goTrimSpace_idem (s : GoStr) : goTrimSpace (goTrimSpace s) = goTrimSpace s := by
  rw [goTrimSpace_eq_rdrop s, goTrimSpace_eq_rdrop]
  have h1 : (List.rdropWhile goIsSpaceChar (s.dropWhile goIsSpaceChar)).dropWhile goIsSpaceChar
      = List.rdropWhile goIsSpaceChar (s.dropWhile goIsSpaceChar) := by
    rw [List.dropWhile_eq_self_iff]
    intro hl
    obtain ⟨t, ht⟩ := List.rdropWhile_prefix goIsSpaceChar (s.dropWhile goIsSpaceChar)
    have hlu : 0 < (s.dropWhile goIsSpaceChar).length := by
      have hle := List.IsPrefix.length_le (⟨t, ht⟩ :
        List.rdropWhile goIsSpaceChar (s.dropWhile goIsSpaceChar) <+: s.dropWhile goIsSpaceChar)
      omega
    have hget := List.dropWhile_get_zero_not goIsSpaceChar s hlu
    have hgeteq : (s.dropWhile goIsSpaceChar).get ⟨0, hlu⟩ =
        (List.rdropWhile goIsSpaceChar (s.dropWhile goIsSpaceChar)).get ⟨0, hl⟩ :=
      (List.get_of_eq ht.symm ⟨0, hlu⟩).trans (List.get_append 0 hl)
    rw [hgeteq] at hget
    exact hget
  rw [h1, List.rdropWhile_idempotent]

/-- Normalized entries are trimmed and non-empty. -/
theorem normalizeTexts_mem {texts : List GoStr} {t : GoStr} (h : t ∈ normalizeTexts texts) :
    goTrimSpace t = t ∧ t ≠ [] := by
  unfold normalizeTexts at h
  rw [List.mem_filter] at h
  obtain ⟨hmap, hne⟩ := h
  rw [List.mem_map] at hmap
  obtain ⟨x, _, rfl⟩ := hmap
  exact ⟨goTrimSpace_idem x, by simpa using hne⟩

/-- Texts normalization is idempotent. -/
theorem normalizeTexts_fix (texts : List GoStr) :
    normalizeTexts (normalizeTexts texts) = normalizeTexts texts := by
  have hmap : (normalizeTexts texts).map goTrimSpace = normalizeTexts texts := by
    have h1 : ∀ t ∈ normalizeTexts texts, goTrimSpace t = t := fun t ht =>
      (normalizeTexts_mem ht).1
    simpa using List.map_congr_left h1
  have hfil : (normalizeTexts texts).filter (fun t => t ≠ []) = normalizeTexts texts :=
    List.filter_eq_self.mpr (fun t ht => by simpa using (normalizeTexts_mem ht).2)
  show ((normalizeTexts texts).map goTrimSpace).filter (fun t => t ≠ []) = normalizeTexts texts
  rw [hmap, hfil]

/-- Forward evaluation of the rule validator when every check passes. -/
theorem ruleValidate_eval_ok (r : DbRule) (texts : List GoStr)
    (ht : jsonUnmarshalStrings r.Texts = some texts)
    (hname : goTrimSpace r.Name ≠ [])
    (hlen : utf8Len (goTrimSpace r.Name) ≤ 25)
    (hT : normalizeTexts texts ≠ [])
    (h20 : (normalizeTexts texts).length ≤ 20)
    (h64 : (normalizeTexts texts).any (fun t => utf8Len t > 64) = false)
    (hreg : r.Rule = "regex".toList →
      ∃ t0, normalizeTexts texts = [t0] ∧ (goRegexCompile t0).isSome = true) :
    ruleValidate r =
      ({ r with
          Name := goTrimSpace r.Name
          Texts := jsonMarshalStrings (normalizeTexts texts) }, none) := by
  unfold ruleValidate
  simp only [ht]
  rw [if_neg hname, if_neg (by omega : ¬ utf8Len (goTrimSpace r.Name) > 25),
    if_neg hT, if_neg (by omega : ¬ (normalizeTexts texts).length > 20),
    if_neg (by simp [h64] : ¬ (normalizeTexts texts).any (fun t => utf8Len t > 64) = true)]
  by_cases hk : r.Rule = "regex".toList
  · obtain ⟨t0, hT0, hcomp⟩ := hreg hk
    obtain ⟨re, hre⟩ := Option.isSome_iff_exists.mp hcomp
    rw [if_pos hk, hT0]
    simp [hre, hT0]
  · rw [if_neg hk]

/-- A successful rule validation implies every check passed. -/
theorem ruleValidate_ok_conds (r : DbRule) (hok : (ruleValidate r).2 = none) :
    ∃ texts, jsonUnmarshalStrings r.Texts = some texts ∧
      goTrimSpace r.Name ≠ [] ∧ utf8Len (goTrimSpace r.Name) ≤ 25 ∧
      normalizeTexts texts ≠ [] ∧ (normalizeTexts texts).length ≤ 20 ∧
      (normalizeTexts texts).any (fun t => utf8Len t > 64) = false ∧
      (r.Rule = "regex".toList →
        ∃ t0, normalizeTexts texts = [t0] ∧ (goRegexCompile t0).isSome = true) := by
  unfold ruleValidate at hok
  rcases hj : jsonUnmarshalStrings r.Texts with _ | texts
  · simp only [hj] at hok
    simp at hok
  · simp only [hj] at hok
    refine ⟨texts, rfl, ?_⟩
    split_ifs at hok with h1 h2 h3 h4 h5 h6
    · -- regex kind
      have base : goTrimSpace r.Name ≠ [] ∧ utf8Len (goTrimSpace r.Name) ≤ 25 ∧
          normalizeTexts texts ≠ [] ∧ (normalizeTexts texts).length ≤ 20 ∧
          (normalizeTexts texts).any (fun t => utf8Len t > 64) = false :=
        ⟨h1, by omega, h3, by omega, by simpa using h5⟩
      rcases hTT : normalizeTexts texts with _ | ⟨t0, rest⟩
      · exact absurd hTT h3
      · rw [hTT] at hok
        cases rest with
        | nil =>
          simp only [] at hok
          rcases hre : goRegexCompile t0 with _ | re
          · rw [hre] at hok
            simp at hok
          · refine ⟨base.1, base.2.1, by simp, by simp, ?_, fun _ => ⟨t0, rfl, by simp [hre]⟩⟩
            have h64 := base.2.2.2.2
            rw [hTT] at h64
            exact h64
        | cons t1 rest' => simp at hok
    · exact ⟨h1, by omega, h3, by omega, by simpa using h5, fun hkk => absurd hkk h6⟩

/-- Claim C7 (amended): rule validation succeeds exactly when the texts
parse as a JSON array whose trimmed non-empty entries number 1..20 at up to
64 bytes each, the trimmed name is non-empty and at most 25 bytes, and a
regex rule carries exactly one entry whose pattern compiles.  The wired
validator checks neither the project id, nor the kind, nor control
characters in the name. -/
theorem claim_C7 (r : DbRule) :
    (ruleValidate r).2 = none ↔
      ∃ texts, jsonUnmarshalStrings r.Texts = some texts ∧
        goTrimSpace r.Name ≠ [] ∧ utf8Len (goTrimSpace r.Name) ≤ 25 ∧
        normalizeTexts texts ≠ [] ∧ (normalizeTexts texts).length ≤ 20 ∧
        (normalizeTexts texts).any (fun t => utf8Len t > 64) = false ∧
        (r.Rule = "regex".toList →
          ∃ t0, normalizeTexts texts = [t0] ∧ (goRegexCompile t0).isSome = true) := by
  constructor
  · exact ruleValidate_ok_conds r
  · rintro ⟨texts, ht, hname, hlen, hT, h20, h64, hreg⟩
    rw [ruleValidate_eval_ok r texts ht hname hlen hT h20 h64 hreg]

/-- Counterexample to claim C7 as stated: a rule with an invalid kind, a
non-UUID project id and a tab inside its name still validates
successfully. -/
theorem claim_C7_counterexample :
    ¬ (((ruleValidate badRuleC7).2 = none) ↔ specRuleValidC7 badRuleC7) := by
  intro hiff
  have hspec := hiff.mp (by decide)
  exact absurd hspec.2.2.2.2.1 (by decide)

/-- Claim C8 (amended): rule validation mutates only the name (trimming
whitespace) and the texts (trim entries, drop empties, re-serialize, and
only after the bounds checks pass); every other field is unchanged. -/
theorem claim_C8 (r : DbRule) :
    (ruleValidate r).1.ID = r.ID ∧ (ruleValidate r).1.ProjectID = r.ProjectID ∧
    (ruleValidate r).1.Rule = r.Rule ∧ (ruleValidate r).1.CaseSensitive = r.CaseSensitive ∧
    (ruleValidate r).1.CreatedAt = r.CreatedAt ∧ (ruleValidate r).1.UpdatedAt = r.UpdatedAt ∧
    (ruleValidate r).1.Name = goTrimSpace r.Name ∧
    ((ruleValidate r).1.Texts = r.Texts ∨
      ∃ texts, jsonUnmarshalStrings r.Texts = some texts ∧
        (ruleValidate r).1.Texts = jsonMarshalStrings (normalizeTexts texts)) := by
  unfold ruleValidate
  rcases hj : jsonUnmarshalStrings r.Texts with _ | texts
  · simp only [hj]
    exact ⟨by trivial, by trivial, by trivial, by trivial, by trivial, by trivial, by trivial, Or.inl (by trivial)⟩
  · simp only [hj]
    split_ifs with h1 h2 h3 h4 h5 h6
    · exact ⟨by trivial, by trivial, by trivial, by trivial, by trivial, by trivial, by trivial, Or.inl (by trivial)⟩
    · exact ⟨by trivial, by trivial, by trivial, by trivial, by trivial, by trivial, by trivial, Or.inl (by trivial)⟩
    · exact ⟨by trivial, by trivial, by trivial, by trivial, by trivial, by trivial, by trivial, Or.inl (by trivial)⟩
    · exact ⟨by trivial, by trivial, by trivial, by trivial, by trivial, by trivial, by trivial, Or.inl (by trivial)⟩
    · exact ⟨by trivial, by trivial, by trivial, by trivial, by trivial, by trivial, by trivial, Or.inl (by trivial)⟩
    · split
      · split
        · exact ⟨by trivial, by trivial, by trivial, by trivial, by trivial, by trivial,
            by trivial, Or.inr ⟨texts, by trivial, by trivial⟩⟩
        · exact ⟨by trivial, by trivial, by trivial, by trivial, by trivial, by trivial,
            by trivial, Or.inr ⟨texts, by trivial, by trivial⟩⟩
      · exact ⟨by trivial, by trivial, by trivial, by trivial, by trivial, by trivial,
          by trivial, Or.inr ⟨texts, by trivial, by trivial⟩⟩
    · exact ⟨by trivial, by trivial, by trivial, by trivial, by trivial, by trivial,
        by trivial, Or.inr ⟨texts, by trivial, by trivial⟩⟩

/-- Counterexample to claim C8 as stated: a successfully validated rule
has its name trimmed in place, so a field other than texts is mutated. -/
theorem claim_C8_counterexample :
    (ruleValidate cxRuleC8).2 = none ∧ (ruleValidate cxRuleC8).1.Name ≠ cxRuleC8.Name := by
  exact ⟨by decide, by decide⟩

/-- Claim C9: rule validation is idempotent on its output: a second run on
a successfully validated rule succeeds and leaves the whole rule, its
re-serialized texts included, unchanged. -/
theorem claim_C9 (r r1 : DbRule) (h : ruleValidate r = (r1, none)) :
    ruleValidate r1 = (r1, none) := by
  have h2 : (ruleValidate r).2 = none := by rw [h]
  obtain ⟨texts, ht, hname, hlen, hT, h20, h64, hreg⟩ := ruleValidate_ok_conds r h2
  have heq := ruleValidate_eval_ok r texts ht hname hlen hT h20 h64 hreg
  have hr1 : r1 = { r with
      Name := goTrimSpace r.Name
      Texts := jsonMarshalStrings (normalizeTexts texts) } :=
    congrArg Prod.fst (h.symm.trans heq)
  have hname1 : r1.Name = goTrimSpace r.Name := by rw [hr1]
  have htexts1 : r1.Texts = jsonMarshalStrings (normalizeTexts texts) := by rw [hr1]
  have hrule1 : r1.Rule = r.Rule := by rw [hr1]
  have hid : goTrimSpace r1.Name = r1.Name := by rw [hname1, goTrimSpace_idem]
  have hT1 : jsonUnmarshalStrings r1.Texts = some (normalizeTexts texts) := by
    rw [htexts1]; exact jsonRoundTrip _
  have hfix := normalizeTexts_fix texts
  have heval := ruleValidate_eval_ok r1 (normalizeTexts texts) hT1
    (by rw [hid, hname1]; exact hname)
    (by rw [hid, hname1]; exact hlen)
    (by rw [hfix]; exact hT)
    (by rw [hfix]; exact h20)
    (by rw [hfix]; exact h64)
    (by rw [hfix, hrule1]; exact hreg)
  rw [heval, hid, hfix, ← htexts1]

/-- Witness for C9 at a rule whose texts need trimming and dropping of an
empty entry. -/
theorem claim_C9_witness :
    ruleValidate (ruleValidate wRuleC9).1 = ((ruleValidate wRuleC9).1, none) :=
  claim_C9 wRuleC9 (ruleValidate wRuleC9).1 (by decide)

/-- Witness for the amended C7: the good contains-rule satisfies every
check of the characterization, so validation succeeds on it. -/
theorem claim_C7_witness : (ruleValidate goodRuleC5).2 = none :=
  (claim_C7 goodRuleC5).mpr
    ⟨["a".toList], by decide, by decide, by decide, by decide, by decide, by decide,
      fun hk => absurd hk (by decide)⟩
